import Mathlib

/-!
Shallow embedding of `src/gpt/tokenizer.py` (byte-level BPE tokenizer).

Modelling choices:
* A Python `bytes` value is a `List Nat` of byte values (`ByteSeq`).
* A Python `str` value is a `List Nat` of Unicode code points (`UText`).
* A Python `dict` built by successive insertion is an association list;
  lookup (`dictGet`) returns the value of the *last* entry with the key,
  mirroring the fact that a later assignment to the same key overwrites
  an earlier one.
* A list comprehension that can raise `KeyError` is a function into
  `Option` (`optMap`): `none` models the raised exception.
* `PRETOKENIZE_REGEX` lives in `src/gpt/bpe.py`, which is not part of the
  sources.  Modelled from the spec: the tokenizer carries an abstract
  field `presplit : UText → List UText` standing for
  "a function that splits a string into maximal pretoken substrings";
  theorems that need it assume the tiling property
  `∀ c, (presplit c).flatten = c`.
* Python's `str.encode("utf-8")` and `bytes.decode("utf-8", errors="replace")`
  are modelled by `utf8Encode` / `utf8Decode` (RFC 3629 ranges, replacement
  character `0xFFFD` for each maximal invalid subpart, as CPython does).
* `while` loops are modelled with explicit fuel; the fuel supplied is always
  sufficient (each merge round strictly shrinks the unit list), which the
  fixpoint lemmas below make precise.
-/

/-- Byte strings: lists of byte values (0..255 for real inputs). -/
abbrev ByteSeq := List Nat

/-- Unicode text: lists of Unicode code points. -/
abbrev UText := List Nat

/-- A merge-rule pair, as in `merges: list[tuple[bytes, bytes]]`. -/
abbrev BPair := ByteSeq × ByteSeq

/-- A Unicode scalar value (what a Python `str` character that survives
`encode("utf-8")` can be): below the surrogate block or above it. -/
def ValidCodepoint (c : Nat) : Prop := c < 0xD800 ∨ (0xE000 ≤ c ∧ c < 0x110000)

instance (c : Nat) : Decidable (ValidCodepoint c) := by
  unfold ValidCodepoint; infer_instance

/-- UTF-8 encoding of one code point (`str.encode("utf-8")`, one character). -/
def utf8EncodeChar (c : Nat) : List Nat :=
  if c < 0x80 then [c]
  else if c < 0x800 then [0xC0 + c / 64, 0x80 + c % 64]
  else if c < 0x10000 then [0xE0 + c / 4096, 0x80 + (c / 64) % 64, 0x80 + c % 64]
  else [0xF0 + c / 0x40000, 0x80 + (c / 4096) % 64, 0x80 + (c / 64) % 64, 0x80 + c % 64]

/-- UTF-8 encoding of a text (`str.encode("utf-8")`). -/
def utf8Encode (t : UText) : List Nat := t.flatMap utf8EncodeChar

/-- UTF-8 decoding with replacement, modelling
`bytes.decode("utf-8", errors="replace")`: total, never fails, emits
`0xFFFD` for each maximal invalid subpart and resumes at the offending byte. -/
def utf8Decode : List Nat → List Nat
  | [] => []
  | b :: rest =>
    if b < 0x80 then b :: utf8Decode rest
    else if b < 0xC2 then 0xFFFD :: utf8Decode rest
    else if b < 0xE0 then
      match rest with
      | [] => [0xFFFD]
      | b1 :: rest1 =>
        if 0x80 ≤ b1 ∧ b1 < 0xC0 then
          ((b - 0xC0) * 64 + (b1 - 0x80)) :: utf8Decode rest1
        else 0xFFFD :: utf8Decode (b1 :: rest1)
    else if b < 0xF0 then
      match rest with
      | [] => [0xFFFD]
      | b1 :: rest1 =>
        if (if b = 0xE0 then 0xA0 ≤ b1 ∧ b1 < 0xC0
            else if b = 0xED then 0x80 ≤ b1 ∧ b1 < 0xA0
            else 0x80 ≤ b1 ∧ b1 < 0xC0) then
          match rest1 with
          | [] => [0xFFFD]
          | b2 :: rest2 =>
            if 0x80 ≤ b2 ∧ b2 < 0xC0 then
              ((b - 0xE0) * 4096 + (b1 - 0x80) * 64 + (b2 - 0x80)) :: utf8Decode rest2
            else 0xFFFD :: utf8Decode (b2 :: rest2)
        else 0xFFFD :: utf8Decode (b1 :: rest1)
    else if b < 0xF5 then
      match rest with
      | [] => [0xFFFD]
      | b1 :: rest1 =>
        if (if b = 0xF0 then 0x90 ≤ b1 ∧ b1 < 0xC0
            else if b = 0xF4 then 0x80 ≤ b1 ∧ b1 < 0x90
            else 0x80 ≤ b1 ∧ b1 < 0xC0) then
          match rest1 with
          | [] => [0xFFFD]
          | b2 :: rest2 =>
            if 0x80 ≤ b2 ∧ b2 < 0xC0 then
              match rest2 with
              | [] => [0xFFFD]
              | b3 :: rest3 =>
                if 0x80 ≤ b3 ∧ b3 < 0xC0 then
                  ((b - 0xF0) * 0x40000 + (b1 - 0x80) * 4096 + (b2 - 0x80) * 64 + (b3 - 0x80))
                    :: utf8Decode rest3
                else 0xFFFD :: utf8Decode (b3 :: rest3)
            else 0xFFFD :: utf8Decode (b2 :: rest2)
        else 0xFFFD :: utf8Decode (b1 :: rest1)
    else 0xFFFD :: utf8Decode rest

/-- Lookup in an association list with Python-dict semantics: the value of
the last entry carrying the key wins (later insertions overwrite earlier
ones). -/
def dictGet {α β : Type} [DecidableEq α] (l : List (α × β)) (a : α) : Option β :=
  match l with
  | [] => none
  | kv :: rest =>
    match dictGet rest a with
    | some v => some v
    | none => if kv.1 = a then some kv.2 else none

/-- Assignment `d[k] = v` on a Python dict represented as an association
list: overwrite in place if the key exists, otherwise append. -/
def dictSet {β : Type} (d : List (Nat × β)) (k : Nat) (v : β) : List (Nat × β) :=
  if k ∈ d.map Prod.fst then d.map (fun kv => if kv.1 = k then (k, v) else kv)
  else d ++ [(k, v)]

/-- A list comprehension whose body may raise: `none` iff some element
fails. -/
def optMap {α β : Type} (f : α → Option β) : List α → Option (List β)
  | [] => some []
  | a :: rest =>
    match f a, optMap f rest with
    | some b, some bs => some (b :: bs)
    | _, _ => none

/-- All adjacent pairs, translating `get_pairs`
(`[(pretoken[i], pretoken[i+1]) for i in range(len(pretoken) - 1)]`). -/
def getPairs : List ByteSeq → List BPair
  | x :: y :: rest => (x, y) :: getPairs (y :: rest)
  | _ => []

/-- One replacement round of `_merge_word`'s inner `while index < len(tokens)`
loop: replace all non-overlapping occurrences of `p` left to right,
consuming a matched pair before advancing. -/
def mergePass (p : BPair) : List ByteSeq → List ByteSeq
  | x :: y :: rest =>
    if (x, y) = p then (p.1 ++ p.2) :: mergePass p rest
    else x :: mergePass p (y :: rest)
  | l => l

/-- The rank dictionary `{merge: i for i, merge in enumerate(merges)}`,
built by inserting pairs in order starting at index `i`; a later duplicate
overwrites an earlier one, exactly as in a Python dict comprehension. -/
def ranksFrom (i : Nat) : List BPair → BPair → Option Nat
  | [], _ => none
  | m :: rest, p =>
    match ranksFrom (i + 1) rest p with
    | some r => some r
    | none => if m = p then some i else none

/-- Stable insertion for descending length order: `s` goes in front of the
first strictly shorter element, hence after all earlier elements of equal
length. -/
def insertByLen (s : UText) : List UText → List UText
  | [] => [s]
  | t :: rest => if t.length ≤ s.length then s :: t :: rest else t :: insertByLen s rest

/-- The stable descending-length sort
`sorted(special_tokens, key=len, reverse=True)`; any stable sort computes
this same list. -/
def sortSpecials (l : List UText) : List UText := l.foldr insertByLen []

/-- The first special token (in the given alternation order) matching at the
head of `t`, as regex alternation does at a fixed position; only non-empty
literals can match. -/
def findSpecial (specials : List UText) (t : UText) : Option UText :=
  specials.find? (fun s => !s.isEmpty && s.isPrefixOf t)

/-- Scanning core of `re.split(split_pattern, text)` with one capturing
group: find the leftmost occurrence of any special token (alternation order
decides ties at one position), emit the text before it and the separator,
continue after it.  `fuel` bounds the scan; it is always called with
`fuel ≥ t.length`, which suffices because every step consumes at least one
element. -/
def reSplitAux (sp : List UText) : Nat → UText → UText → List UText
  | _, [], acc => [acc.reverse]
  | 0, t, acc => [acc.reverse ++ t]
  | fuel + 1, c :: rest, acc =>
    match findSpecial sp (c :: rest) with
    | some s => acc.reverse :: s :: reSplitAux sp fuel ((c :: rest).drop s.length) []
    | none => reSplitAux sp fuel rest (c :: acc)

/-- `re.split(split_pattern, text)` with the separators kept.  With no
special tokens the whole text is one chunk (`split_pattern = None` path). -/
def reSplit (sp : List UText) (t : UText) : List UText := reSplitAux sp t.length t []

/-- The tokenizer state after `__init__`: vocabulary (id → bytes), ordered
merge rules, special-token literals, and the external pretokenizer.
`presplit` is modelled from the spec (the regex constant lives in the absent
`src/gpt/bpe.py`): a function splitting a chunk into maximal pretoken
substrings. -/
structure Tokenizer where
  vocab : List (Nat × ByteSeq)
  merges : List BPair
  specials : List UText
  presplit : UText → List UText

/-- The vocabulary mutation in `__init__`: every special token whose UTF-8
bytes are not yet a vocabulary value is appended under the key
`len(vocab)`. -/
def addSpecials (vocab : List (Nat × ByteSeq)) (specials : List UText) :
    List (Nat × ByteSeq) :=
  specials.foldl
    (fun v s =>
      if utf8Encode s ∈ v.map Prod.snd then v
      else dictSet v v.length (utf8Encode s))
    vocab

/-- `Tokenizer.__init__(vocab, merges, special_tokens)`. -/
def Tokenizer.init (vocab : List (Nat × ByteSeq)) (merges : List BPair)
    (specials : List UText) (presplit : UText → List UText) : Tokenizer :=
  { vocab := addSpecials vocab specials
    merges := merges
    specials := specials
    presplit := presplit }

/-- The derived rank table `self.merge_ranks`. -/
def Tokenizer.merge_ranks (tk : Tokenizer) (p : BPair) : Option Nat :=
  ranksFrom 0 tk.merges p

/-- The derived reverse lookup `self.vocab_to_id = {v: k for k, v in ...}`. -/
def Tokenizer.vocab_to_id (tk : Tokenizer) (b : ByteSeq) : Option Nat :=
  dictGet (tk.vocab.map (fun kv => (kv.2, kv.1))) b

/-- The special tokens in the alternation order of `self.split_pattern`
(descending length, stable). -/
def Tokenizer.sortedSpecials (tk : Tokenizer) : List UText :=
  sortSpecials tk.specials

/-- The rank of a pair with default 0, used only on pairs known to be
ranked (the `key=lambda pair: self.merge_ranks[pair]` of `min`). -/
def rankD (tk : Tokenizer) (p : BPair) : Nat := (tk.merge_ranks p).getD 0

/-- `merge_candidates = [pair for pair in pairs if pair in self.merge_ranks]`. -/
def candidatePairs (tk : Tokenizer) (ts : List ByteSeq) : List BPair :=
  (getPairs ts).filter (fun p => (tk.merge_ranks p).isSome)

/-- `min(merge_candidates, key=...)` guarded by the emptiness test: `none`
when no adjacent pair is ranked, otherwise the first candidate attaining
the minimal rank (Python's `min` keeps the earliest minimum). -/
def bestPair (tk : Tokenizer) (ts : List ByteSeq) : Option BPair :=
  match candidatePairs tk ts with
  | [] => none
  | c :: cs => some (cs.foldl (fun best p => if rankD tk p < rankD tk best then p else best) c)

/-- The outer `while True` loop of `_merge_word` with explicit fuel; each
iteration merges the best pair everywhere, stopping when no adjacent pair is
ranked. -/
def mergeLoopF (tk : Tokenizer) : Nat → List ByteSeq → List ByteSeq
  | 0, ts => ts
  | fuel + 1, ts =>
    match bestPair tk ts with
    | none => ts
    | some p => mergeLoopF tk fuel (mergePass p ts)

/-- The merge loop run to its fixpoint: `ts.length` units admit at most
`ts.length` rounds because every round strictly shrinks the list. -/
def mergeLoop (tk : Tokenizer) (ts : List ByteSeq) : List ByteSeq :=
  mergeLoopF tk ts.length ts

/-- `_merge_word`: run the merge loop, then map the final units through
`self.vocab_to_id` (`none` models the `KeyError` on a missing unit). -/
def Tokenizer.merge_word (tk : Tokenizer) (w : List ByteSeq) : Option (List Nat) :=
  optMap tk.vocab_to_id (mergeLoop tk w)

/-- The loop body of `pretokenize` for one chunk: a chunk equal to a special
token becomes the single-unit pretoken of its UTF-8 bytes, any other chunk
is pretokenized by the external regex and each match decomposed into
single-byte units. -/
def chunkPretokens (tk : Tokenizer) (chunk : UText) : List (List ByteSeq) :=
  if chunk ∈ tk.specials then [[utf8Encode chunk]]
  else (tk.presplit chunk).map (fun w => (utf8Encode w).map (fun b => [b]))

/-- `pretokenize`: split on the special-token pattern and process every
chunk in order. -/
def Tokenizer.pretokenize (tk : Tokenizer) (t : UText) : List (List ByteSeq) :=
  (reSplit tk.sortedSpecials t).flatMap (chunkPretokens tk)

/-- `encode`: merge every pretoken and concatenate
(`sum((self._merge_word(word) for word in word_iter), [])`). -/
def Tokenizer.encode (tk : Tokenizer) (t : UText) : Option (List Nat) :=
  (optMap tk.merge_word (tk.pretokenize t)).map List.flatten

/-- `decode`: look every id up in the vocabulary (`none` models the
`KeyError` on a missing id), concatenate the byte strings and decode them
as lossy UTF-8. -/
def Tokenizer.decode (tk : Tokenizer) (ids : List Nat) : Option UText :=
  (optMap (fun i => dictGet tk.vocab i) ids).map (fun bss => utf8Decode bss.flatten)

/-! Basic lemmas about the dictionary and comprehension models. -/

theorem optMap_eq_none {α β : Type} (f : α → Option β) (l : List α) :
    optMap f l = none ↔ ∃ a ∈ l, f a = none := by
  induction l with
  | nil => simp [optMap]
  | cons a rest ih =>
    simp only [optMap]
    cases hfa : f a with
    | none => simp [hfa]
    | some b =>
      cases hrest : optMap f rest with
      | none =>
        simp only [List.mem_cons]
        constructor
        · intro _
          obtain ⟨x, hx, hfx⟩ := ih.mp hrest
          exact ⟨x, Or.inr hx, hfx⟩
        · intro _; trivial
      | some bs =>
        simp only [List.mem_cons]
        constructor
        · intro h; exact absurd h (by simp)
        · rintro ⟨x, hx | hx, hfx⟩
          · rw [hx] at hfx; rw [hfa] at hfx; cases hfx
          · have := ih.mpr ⟨x, hx, hfx⟩; rw [this] at hrest; cases hrest

theorem optMap_append_some {α β : Type} {f : α → Option β} {l₁ l₂ : List α}
    {b₁ b₂ : List β} (h₁ : optMap f l₁ = some b₁) (h₂ : optMap f l₂ = some b₂) :
    optMap f (l₁ ++ l₂) = some (b₁ ++ b₂) := by
  induction l₁ generalizing b₁ with
  | nil => simp [optMap] at h₁; subst h₁; simpa using h₂
  | cons a rest ih =>
    simp only [optMap] at h₁
    cases hfa : f a with
    | none => rw [hfa] at h₁; cases h₁
    | some b =>
      rw [hfa] at h₁
      cases hrest : optMap f rest with
      | none => rw [hrest] at h₁; cases h₁
      | some bs =>
        rw [hrest] at h₁
        simp only [Option.some.injEq] at h₁
        subst h₁
        simp [optMap, hfa, List.append_eq, ih hrest]

theorem optMap_length {α β : Type} {f : α → Option β} {l : List α} {l' : List β}
    (h : optMap f l = some l') : l'.length = l.length := by
  induction l generalizing l' with
  | nil => simp [optMap] at h; subst h; rfl
  | cons a rest ih =>
    simp only [optMap] at h
    cases hfa : f a with
    | none => rw [hfa] at h; cases h
    | some b =>
      rw [hfa] at h
      cases hrest : optMap f rest with
      | none => rw [hrest] at h; cases h
      | some bs =>
        rw [hrest] at h
        simp only [Option.some.injEq] at h
        subst h
        simp [ih hrest]

theorem optMap_roundtrip {α β : Type} {f : α → Option β} {g : β → Option α}
    {l : List α} (h : ∀ a ∈ l, ∃ b, f a = some b ∧ g b = some a) :
    ∃ l', optMap f l = some l' ∧ optMap g l' = some l := by
  induction l with
  | nil => exact ⟨[], rfl, rfl⟩
  | cons a rest ih =>
    obtain ⟨b, hfa, hgb⟩ := h a (List.mem_cons_self a rest)
    obtain ⟨l', hf, hg⟩ := ih (fun x hx => h x (List.mem_cons_of_mem a hx))
    exact ⟨b :: l', by simp [optMap, hfa, hf], by simp [optMap, hgb, hg]⟩

theorem dictGet_eq_none {α β : Type} [DecidableEq α] (l : List (α × β)) (a : α) :
    dictGet l a = none ↔ ∀ kv ∈ l, kv.1 ≠ a := by
  induction l with
  | nil => simp [dictGet]
  | cons kv rest ih =>
    simp only [dictGet]
    cases hrest : dictGet rest a with
    | some v =>
      simp only [List.mem_cons]
      constructor
      · intro h; cases h
      · intro h
        have : ∀ kv' ∈ rest, kv'.1 ≠ a := fun kv' h' => h kv' (Or.inr h')
        rw [ih.mpr this] at hrest; cases hrest
    | none =>
      by_cases hk : kv.1 = a
      · simp [hk]
      · simp only [hk, if_false, List.mem_cons]
        constructor
        · intro _ kv' hkv'
          rcases hkv' with h | h
          · rw [h]; exact hk
          · exact ih.mp hrest kv' h
        · intro _; trivial

theorem dictGet_of_mem_nodup {α β : Type} [DecidableEq α] {l : List (α × β)}
    {a : α} {b : β} (hmem : (a, b) ∈ l) (hnd : (l.map Prod.fst).Nodup) :
    dictGet l a = some b := by
  induction l with
  | nil => cases hmem
  | cons kv rest ih =>
    simp only [List.map_cons, List.nodup_cons] at hnd
    rcases List.mem_cons.mp hmem with h | h
    · subst h
      have : dictGet rest a = none := by
        rw [dictGet_eq_none]
        intro kv' hkv' hk
        have hm := List.mem_map_of_mem Prod.fst hkv'
        rw [hk] at hm
        exact hnd.1 hm
      simp [dictGet, this]
    · have := ih h hnd.2
      simp [dictGet, this]

theorem ranksFrom_eq_none_of_not_mem {l : List BPair} {p : BPair} (h : p ∉ l) (i : Nat) :
    ranksFrom i l p = none := by
  induction l generalizing i with
  | nil => rfl
  | cons m rest ih =>
    simp only [List.mem_cons, not_or] at h
    simp [ranksFrom, ih h.2, Ne.symm h.1]

theorem ranksFrom_mem_of_isSome {l : List BPair} {p : BPair} {i : Nat}
    (h : (ranksFrom i l p).isSome) : p ∈ l := by
  by_contra hmem
  rw [ranksFrom_eq_none_of_not_mem hmem] at h
  cases h

theorem ranksFrom_last {l₁ l₂ : List BPair} {p : BPair} (h : p ∉ l₂) (i : Nat) :
    ranksFrom i (l₁ ++ p :: l₂) p = some (i + l₁.length) := by
  induction l₁ generalizing i with
  | nil => simp [ranksFrom, ranksFrom_eq_none_of_not_mem h]
  | cons m rest ih =>
    have h1 := ih (i + 1)
    simp only [List.cons_append, ranksFrom, List.append_eq, h1, List.length_cons]
    have h2 : i + 1 + rest.length = i + (rest.length + 1) := by omega
    rw [h2]

/-! Lemmas about one merge round and the merge loop. -/

theorem mergePass_flatten (p : BPair) (ts : List ByteSeq) :
    (mergePass p ts).flatten = ts.flatten := by
  induction ts using mergePass.induct p with
  | case1 x y rest heq ih => cases heq; simp [mergePass, ih]
  | case2 x y rest hne ih => simp [mergePass, hne, ih]
  | case3 l h => simp [mergePass]

theorem mergePass_length_le (p : BPair) (ts : List ByteSeq) :
    (mergePass p ts).length ≤ ts.length := by
  induction ts using mergePass.induct p with
  | case1 x y rest heq ih => cases heq; simp [mergePass]; omega
  | case2 x y rest hne ih =>
    simp [mergePass, hne]
    have h2 : (y :: rest).length = rest.length + 1 := rfl
    omega
  | case3 l h => simp [mergePass]

theorem mergePass_length_lt (p : BPair) :
    ∀ ts : List ByteSeq, p ∈ getPairs ts → (mergePass p ts).length < ts.length
  | [], hp => by simp [getPairs] at hp
  | [x], hp => by simp [getPairs] at hp
  | x :: y :: rest, hp => by
    by_cases h : (x, y) = p
    · simp only [mergePass, if_pos h, List.length_cons]
      have := mergePass_length_le p rest
      omega
    · rw [mergePass, if_neg h]
      have hp' : p ∈ getPairs (y :: rest) := by
        simp only [getPairs, List.mem_cons] at hp
        rcases hp with h' | h'
        · exact absurd h'.symm h
        · exact h'
      have h1 := mergePass_length_lt p (y :: rest) hp'
      have h2 : (y :: rest).length = rest.length + 1 := rfl
      have h3 : (x :: y :: rest).length = rest.length + 2 := rfl
      have h4 : (x :: mergePass p (y :: rest)).length
          = (mergePass p (y :: rest)).length + 1 := rfl
      omega

theorem mergePass_mem (p : BPair) {u : ByteSeq} :
    ∀ ts : List ByteSeq, u ∈ mergePass p ts → u ∈ ts ∨ u = p.1 ++ p.2
  | [], h => Or.inl h
  | [x], h => Or.inl h
  | x :: y :: rest, h => by
    by_cases hxy : (x, y) = p
    · rw [mergePass, if_pos hxy] at h
      rcases List.mem_cons.mp h with h' | h'
      · exact Or.inr h'
      · rcases mergePass_mem p rest h' with h'' | h''
        · exact Or.inl (by simp [h''])
        · exact Or.inr h''
    · rw [mergePass, if_neg hxy] at h
      rcases List.mem_cons.mp h with h' | h'
      · exact Or.inl (by simp [h'])
      · rcases mergePass_mem p (y :: rest) h' with h'' | h''
        · exact Or.inl (List.mem_cons_of_mem x h'')
        · exact Or.inr h''

theorem mem_candidatePairs {tk : Tokenizer} {ts : List ByteSeq} {p : BPair} :
    p ∈ candidatePairs tk ts ↔ p ∈ getPairs ts ∧ (tk.merge_ranks p).isSome := by
  simp [candidatePairs, List.mem_filter]

theorem foldl_rank_min (tk : Tokenizer) (cs : List BPair) (c : BPair) :
    (cs.foldl (fun best p => if rankD tk p < rankD tk best then p else best) c ∈ c :: cs)
    ∧ rankD tk (cs.foldl (fun best p => if rankD tk p < rankD tk best then p else best) c)
        ≤ rankD tk c
    ∧ ∀ q ∈ cs,
        rankD tk (cs.foldl (fun best p => if rankD tk p < rankD tk best then p else best) c)
          ≤ rankD tk q := by
  induction cs generalizing c with
  | nil => exact ⟨List.mem_cons_self c [], le_refl _, by simp⟩
  | cons q cs' ih =>
    simp only [List.foldl_cons]
    by_cases hq : rankD tk q < rankD tk c
    · rw [if_pos hq]
      obtain ⟨hmem, hle, hall⟩ := ih q
      refine ⟨?_, ?_, ?_⟩
      · rcases List.mem_cons.mp hmem with h | h
        · simp [h]
        · simp [List.mem_cons_of_mem, h]
      · omega
      · intro w hw
        rcases List.mem_cons.mp hw with h | h
        · rw [h]; exact hle
        · exact hall w h
    · rw [if_neg hq]
      obtain ⟨hmem, hle, hall⟩ := ih c
      refine ⟨?_, hle, ?_⟩
      · rcases List.mem_cons.mp hmem with h | h
        · simp [h]
        · simp [List.mem_cons_of_mem, h]
      · intro w hw
        rcases List.mem_cons.mp hw with h | h
        · rw [h]; omega
        · exact hall w h

theorem bestPair_spec {tk : Tokenizer} {ts : List ByteSeq} {p : BPair}
    (h : bestPair tk ts = some p) :
    p ∈ candidatePairs tk ts ∧ ∀ q ∈ candidatePairs tk ts, rankD tk p ≤ rankD tk q := by
  unfold bestPair at h
  cases hc : candidatePairs tk ts with
  | nil => rw [hc] at h; cases h
  | cons c cs =>
    rw [hc] at h
    simp only [Option.some.injEq] at h
    obtain ⟨hmem, hle, hall⟩ := foldl_rank_min tk cs c
    subst h
    refine ⟨hmem, ?_⟩
    intro q hq
    rcases List.mem_cons.mp hq with h' | h'
    · rw [h']; exact hle
    · exact hall q h'

theorem bestPair_eq_none {tk : Tokenizer} {ts : List ByteSeq} :
    bestPair tk ts = none ↔ candidatePairs tk ts = [] := by
  unfold bestPair
  cases candidatePairs tk ts <;> simp

theorem mergeLoopF_flatten (tk : Tokenizer) :
    ∀ (fuel : Nat) (ts : List ByteSeq), (mergeLoopF tk fuel ts).flatten = ts.flatten
  | 0, ts => rfl
  | fuel + 1, ts => by
    rw [mergeLoopF]
    cases h : bestPair tk ts with
    | none => rfl
    | some p => rw [mergeLoopF_flatten tk fuel (mergePass p ts), mergePass_flatten]

theorem mergeLoopF_length_le (tk : Tokenizer) :
    ∀ (fuel : Nat) (ts : List ByteSeq), (mergeLoopF tk fuel ts).length ≤ ts.length
  | 0, ts => le_refl _
  | fuel + 1, ts => by
    rw [mergeLoopF]
    cases h : bestPair tk ts with
    | none => exact le_refl _
    | some p =>
      show (mergeLoopF tk fuel (mergePass p ts)).length ≤ ts.length
      have h1 := mergeLoopF_length_le tk fuel (mergePass p ts)
      have h2 := mergePass_length_le p ts
      omega

theorem mergeLoopF_mem (tk : Tokenizer) {u : ByteSeq} :
    ∀ (fuel : Nat) (ts : List ByteSeq), u ∈ mergeLoopF tk fuel ts →
      u ∈ ts ∨ ∃ q : BPair, (tk.merge_ranks q).isSome ∧ u = q.1 ++ q.2
  | 0, ts, h => Or.inl h
  | fuel + 1, ts, h => by
    rw [mergeLoopF] at h
    cases hb : bestPair tk ts with
    | none => rw [hb] at h; exact Or.inl h
    | some p =>
      rw [hb] at h
      rcases mergeLoopF_mem tk fuel (mergePass p ts) h with h' | h'
      · rcases mergePass_mem p ts h' with h'' | h''
        · exact Or.inl h''
        · exact Or.inr ⟨p, (mem_candidatePairs.mp (bestPair_spec hb).1).2, h''⟩
      · exact Or.inr h'

theorem mergeLoopF_fixpoint (tk : Tokenizer) :
    ∀ (fuel : Nat) (ts : List ByteSeq), ts.length ≤ fuel →
      bestPair tk (mergeLoopF tk fuel ts) = none
  | 0, ts, h => by
    have : ts = [] := List.eq_nil_of_length_eq_zero (by omega)
    subst this
    rw [mergeLoopF]
    rw [bestPair_eq_none]
    rfl
  | fuel + 1, ts, h => by
    rw [mergeLoopF]
    cases hb : bestPair tk ts with
    | none => exact hb
    | some p =>
      have hp : p ∈ getPairs ts := (mem_candidatePairs.mp (bestPair_spec hb).1).1
      have h1 := mergePass_length_lt p ts hp
      exact mergeLoopF_fixpoint tk fuel (mergePass p ts) (by omega)

/-! UTF-8 round-trip lemmas. -/

set_option maxRecDepth 4096 in
theorem utf8Decode_encodeChar {c : Nat} (h : ValidCodepoint c) (bs : List Nat) :
    utf8Decode (utf8EncodeChar c ++ bs) = c :: utf8Decode bs := by
  by_cases hA : c < 0x80
  · rw [utf8EncodeChar, if_pos hA]
    simp only [List.cons_append, List.nil_append]
    rw [utf8Decode.eq_def]
    simp only []
    rw [if_pos hA]
  · by_cases hB : c < 0x800
    · rw [utf8EncodeChar, if_neg hA, if_pos hB]
      simp only [List.cons_append, List.nil_append]
      rw [utf8Decode.eq_def]
      simp only []
      rw [if_neg (by omega), if_neg (by omega), if_pos (by omega)]
      rw [if_pos (by constructor <;> omega)]
      have hv : (0xC0 + c / 64 - 0xC0) * 64 + (0x80 + c % 64 - 0x80) = c := by omega
      rw [hv]
    · by_cases hC : c < 0x10000
      · have hsur : c < 0xD800 ∨ 0xE000 ≤ c := by
          rcases h with h | ⟨h1, h2⟩
          · exact Or.inl h
          · exact Or.inr h1
        rw [utf8EncodeChar, if_neg hA, if_neg hB, if_pos hC]
        simp only [List.cons_append, List.nil_append]
        rw [utf8Decode.eq_def]
        simp only []
        rw [if_neg (by omega), if_neg (by omega), if_neg (by omega), if_pos (by omega)]
        have hv : (0xE0 + c / 4096 - 0xE0) * 4096 + (0x80 + c / 64 % 64 - 0x80) * 64
            + (0x80 + c % 64 - 0x80) = c := by omega
        by_cases hE0 : c < 0x1000
        · rw [if_pos (by
            rw [if_pos (show 0xE0 + c / 4096 = 0xE0 by omega)]
            constructor <;> omega)]
          rw [if_pos (by constructor <;> omega)]
          rw [hv]
        · by_cases hED : 0xD000 ≤ c ∧ c < 0xE000
          · have hc : c < 0xD800 := by omega
            rw [if_pos (by
              rw [if_neg (show ¬ (0xE0 + c / 4096 = 0xE0) by omega),
                  if_pos (show 0xE0 + c / 4096 = 0xED by omega)]
              constructor <;> omega)]
            rw [if_pos (by constructor <;> omega)]
            rw [hv]
          · rw [if_pos (by
              rw [if_neg (show ¬ (0xE0 + c / 4096 = 0xE0) by omega),
                  if_neg (show ¬ (0xE0 + c / 4096 = 0xED) by omega)]
              constructor <;> omega)]
            rw [if_pos (by constructor <;> omega)]
            rw [hv]
      · have hc : 0x10000 ≤ c ∧ c < 0x110000 := by
          rcases h with h | ⟨h1, h2⟩
          · omega
          · omega
        rw [utf8EncodeChar, if_neg hA, if_neg hB, if_neg hC]
        simp only [List.cons_append, List.nil_append]
        rw [utf8Decode.eq_def]
        simp only []
        rw [if_neg (by omega), if_neg (by omega), if_neg (by omega), if_neg (by omega),
            if_pos (by omega)]
        have hv : (0xF0 + c / 0x40000 - 0xF0) * 0x40000 + (0x80 + c / 4096 % 64 - 0x80) * 4096
            + (0x80 + c / 64 % 64 - 0x80) * 64 + (0x80 + c % 64 - 0x80) = c := by omega
        by_cases hF0 : c < 0x40000
        · rw [if_pos (by
            rw [if_pos (show 0xF0 + c / 0x40000 = 0xF0 by omega)]
            constructor <;> omega)]
          rw [if_pos (by constructor <;> omega)]
          rw [if_pos (by constructor <;> omega)]
          rw [hv]
        · by_cases hF4 : 0x100000 ≤ c
          · rw [if_pos (by
              rw [if_neg (show ¬ (0xF0 + c / 0x40000 = 0xF0) by omega),
                  if_pos (show 0xF0 + c / 0x40000 = 0xF4 by omega)]
              constructor <;> omega)]
            rw [if_pos (by constructor <;> omega)]
            rw [if_pos (by constructor <;> omega)]
            rw [hv]
          · rw [if_pos (by
              rw [if_neg (show ¬ (0xF0 + c / 0x40000 = 0xF0) by omega),
                  if_neg (show ¬ (0xF0 + c / 0x40000 = 0xF4) by omega)]
              constructor <;> omega)]
            rw [if_pos (by constructor <;> omega)]
            rw [if_pos (by constructor <;> omega)]
            rw [hv]

theorem utf8Encode_append (a b : UText) :
    utf8Encode (a ++ b) = utf8Encode a ++ utf8Encode b := by
  simp [utf8Encode, List.flatMap_append]

theorem utf8Decode_encode {t : UText} (h : ∀ c ∈ t, ValidCodepoint c) :
    utf8Decode (utf8Encode t) = t := by
  induction t with
  | nil => rfl
  | cons c rest ih =>
    have hc : utf8Encode (c :: rest) = utf8EncodeChar c ++ utf8Encode rest := by
      simp [utf8Encode]
    rw [hc, utf8Decode_encodeChar (h c (List.mem_cons_self c rest))]
    rw [ih (fun x hx => h x (List.mem_cons_of_mem c hx))]

theorem utf8EncodeChar_length_pos (c : Nat) : 1 ≤ (utf8EncodeChar c).length := by
  unfold utf8EncodeChar
  split_ifs <;> simp

theorem utf8EncodeChar_lt_256 {c : Nat} (h : ValidCodepoint c) :
    ∀ b ∈ utf8EncodeChar c, b < 256 := by
  have h' : c < 0x110000 := by
    rcases h with h | ⟨h1, h2⟩ <;> omega
  intro b hb
  unfold utf8EncodeChar at hb
  split_ifs at hb with h1 h2 h3
  · simp only [List.mem_cons, List.not_mem_nil, or_false] at hb
    omega
  · simp only [List.mem_cons, List.not_mem_nil, or_false] at hb
    rcases hb with rfl | rfl <;> omega
  · simp only [List.mem_cons, List.not_mem_nil, or_false] at hb
    rcases hb with rfl | rfl | rfl <;> omega
  · simp only [List.mem_cons, List.not_mem_nil, or_false] at hb
    rcases hb with rfl | rfl | rfl | rfl <;> omega

theorem utf8Encode_flatten (l : List UText) :
    utf8Encode l.flatten = (l.map utf8Encode).flatten := by
  induction l with
  | nil => rfl
  | cons a rest ih => simp [utf8Encode_append, ih]

theorem flatten_map_singleton (l : List Nat) :
    (l.map (fun b => ([b] : List Nat))).flatten = l := by
  induction l with
  | nil => rfl
  | cons a rest ih => simp [ih]

/-! Lemmas about special-token splitting and the stable length sort. -/

theorem findSpecial_eq_none_of {sp : List UText} {t : UText}
    (h : ∀ s ∈ sp, s ≠ [] → ¬ s <+: t) : findSpecial sp t = none := by
  unfold findSpecial
  rw [List.find?_eq_none]
  intro s hs
  by_cases hnil : s = []
  · subst hnil; simp
  · have := h s hs hnil
    simp only [Bool.and_eq_true, Bool.not_eq_true', not_and]
    intro _ hp
    exact this (List.isPrefixOf_iff_prefix.mp hp)

theorem findSpecial_some {sp : List UText} {t s : UText}
    (h : findSpecial sp t = some s) : s ∈ sp ∧ s ≠ [] ∧ s <+: t := by
  refine ⟨List.mem_of_find?_eq_some h, ?_, ?_⟩
  · have hp := List.find?_some h
    simp only [Bool.and_eq_true, Bool.not_eq_true'] at hp
    intro hnil
    rw [hnil] at hp
    simp at hp
  · have hp := List.find?_some h
    simp only [Bool.and_eq_true] at hp
    exact List.isPrefixOf_iff_prefix.mp hp.2

theorem findSpecial_isSome {sp : List UText} {t s : UText}
    (hs : s ∈ sp) (hnil : s ≠ []) (hp : s <+: t) : (findSpecial sp t).isSome := by
  unfold findSpecial
  rw [List.find?_isSome]
  refine ⟨s, hs, ?_⟩
  simp only [Bool.and_eq_true]
  constructor
  · rw [Bool.not_eq_true', ← Bool.not_eq_true]
    intro he
    exact hnil (List.isEmpty_iff.mp (by simpa using he))
  · exact List.isPrefixOf_iff_prefix.mpr hp

theorem reSplitAux_flatten (sp : List UText) :
    ∀ (fuel : Nat) (t acc : UText), t.length ≤ fuel →
      (reSplitAux sp fuel t acc).flatten = acc.reverse ++ t := by
  intro fuel
  induction fuel with
  | zero =>
    intro t acc h
    have ht : t = [] := List.eq_nil_of_length_eq_zero (by omega)
    subst ht
    simp [reSplitAux]
  | succ fuel ih =>
    intro t acc h
    cases t with
    | nil => simp [reSplitAux]
    | cons c rest =>
      rw [reSplitAux.eq_def]
      simp only []
      cases hf : findSpecial sp (c :: rest) with
      | none =>
        rw [ih rest (c :: acc) (by simp at h; omega)]
        simp
      | some s =>
        obtain ⟨_, hnil, hpre⟩ := findSpecial_some hf
        obtain ⟨r, hr⟩ := hpre
        have hlen : 1 ≤ s.length := by
          cases s with
          | nil => exact absurd rfl hnil
          | cons a l => simp
        have hdrop : (c :: rest).drop s.length = r := by
          rw [← hr, List.drop_left]
        have hrec : ((c :: rest).drop s.length).length ≤ fuel := by
          rw [hdrop]
          have : (c :: rest).length = s.length + r.length := by rw [← hr]; simp
          simp only [List.length_cons] at this h
          omega
        show (acc.reverse :: s :: reSplitAux sp fuel ((c :: rest).drop s.length) []).flatten
            = acc.reverse ++ c :: rest
        rw [List.flatten_cons, List.flatten_cons, ih _ [] hrec]
        simp only [List.reverse_nil, List.nil_append, hdrop]
        rw [hr]

theorem reSplitAux_no_match (sp : List UText) :
    ∀ (u w acc : UText) (fuel : Nat), (u ++ w).length ≤ fuel →
      (∀ i, i < u.length → findSpecial sp ((u ++ w).drop i) = none) →
      reSplitAux sp fuel (u ++ w) acc = reSplitAux sp (fuel - u.length) w (u.reverse ++ acc) := by
  intro u
  induction u with
  | nil => intro w acc fuel h hnm; simp
  | cons c u' ih =>
    intro w acc fuel h hnm
    simp only [List.cons_append, List.length_cons] at h ⊢
    cases fuel with
    | zero => omega
    | succ f =>
      rw [reSplitAux.eq_def]
      simp only []
      have h0 := hnm 0 (by simp)
      simp only [List.drop_zero, List.cons_append] at h0
      rw [h0]
      have hshift : ∀ i, i < u'.length → findSpecial sp ((u' ++ w).drop i) = none := by
        intro i hi
        have := hnm (i + 1) (by simp; omega)
        simpa [List.drop_succ_cons] using this
      rw [ih w (c :: acc) f (by simpa using Nat.lt_succ_iff.mp (Nat.lt_succ_of_le h)) hshift]
      have : f - u'.length = f + 1 - (u'.length + 1) := by omega
      rw [← this]
      simp

theorem reSplitAux_nil (sp : List UText) (fuel : Nat) (acc : UText) :
    reSplitAux sp fuel [] acc = [acc.reverse] := by
  cases fuel <;> rfl

theorem reSplit_single {sp : List UText} {t : UText}
    (h : ∀ i, i < t.length → findSpecial sp (t.drop i) = none) :
    reSplit sp t = [t] := by
  unfold reSplit
  have := reSplitAux_no_match sp t [] [] t.length (by simp) (by simpa using h)
  simp only [List.append_nil] at this
  rw [this, Nat.sub_self, reSplitAux_nil]
  simp

theorem reSplitAux_step {sp : List UText} {S v : UText} {k : Nat} (acc : UText)
    (hS : findSpecial sp (S ++ v) = some S) (hnil : S ≠ []) :
    reSplitAux sp (k + 1) (S ++ v) acc
      = acc.reverse :: S :: reSplitAux sp k ((S ++ v).drop S.length) [] := by
  obtain ⟨c, S', rfl⟩ : ∃ c S', S = c :: S' := by
    cases S with
    | nil => exact absurd rfl hnil
    | cons c S' => exact ⟨c, S', rfl⟩
  simp only [List.cons_append] at hS ⊢
  rw [reSplitAux.eq_def]
  simp only [hS]

theorem reSplit_three {sp : List UText} {u S v : UText}
    (hS : findSpecial sp (S ++ v) = some S)
    (hu : ∀ i, i < u.length → findSpecial sp ((u ++ (S ++ v)).drop i) = none)
    (hv : ∀ i, i < v.length → findSpecial sp (v.drop i) = none) :
    reSplit sp (u ++ S ++ v) = [u, S, v] := by
  obtain ⟨_, hnil, _⟩ := findSpecial_some hS
  have hslen : 1 ≤ S.length := by
    cases S with
    | nil => exact absurd rfl hnil
    | cons a l => simp
  unfold reSplit
  rw [List.append_assoc]
  rw [reSplitAux_no_match sp u (S ++ v) [] (u ++ (S ++ v)).length (le_refl _) hu]
  have hfuel : (u ++ (S ++ v)).length - u.length = S.length + v.length := by
    simp only [List.length_append]
    omega
  rw [hfuel]
  obtain ⟨k, hk⟩ : ∃ k, S.length + v.length = k + 1 := ⟨S.length + v.length - 1, by omega⟩
  rw [hk]
  rw [reSplitAux_step (u.reverse ++ []) hS hnil]
  rw [List.drop_left]
  have hvk : v.length ≤ k := by omega
  have hv' := reSplitAux_no_match sp v [] [] k (by simpa using hvk) (by simpa using hv)
  simp only [List.append_nil] at hv'
  rw [hv', reSplitAux_nil]
  simp

theorem mem_insertByLen {s x : UText} : ∀ {l : List UText},
    x ∈ insertByLen s l ↔ x = s ∨ x ∈ l := by
  intro l
  induction l with
  | nil => simp [insertByLen]
  | cons t rest ih =>
    rw [insertByLen]
    by_cases hc : t.length ≤ s.length
    · rw [if_pos hc]
      simp [List.mem_cons]
    · rw [if_neg hc]
      simp only [List.mem_cons, ih]
      tauto

theorem mem_sortSpecials {x : UText} : ∀ {l : List UText}, x ∈ sortSpecials l ↔ x ∈ l := by
  intro l
  induction l with
  | nil => simp [sortSpecials]
  | cons t rest ih =>
    show x ∈ insertByLen t (sortSpecials rest) ↔ _
    rw [mem_insertByLen, ih]
    simp

theorem insertByLen_pairwise {s : UText} {l : List UText}
    (h : l.Pairwise (fun a b => b.length ≤ a.length)) :
    (insertByLen s l).Pairwise (fun a b => b.length ≤ a.length) := by
  induction l with
  | nil => simp [insertByLen]
  | cons t rest ih =>
    rw [insertByLen]
    rw [List.pairwise_cons] at h
    by_cases hc : t.length ≤ s.length
    · rw [if_pos hc]
      rw [List.pairwise_cons]
      refine ⟨?_, List.pairwise_cons.mpr h⟩
      intro b hb
      rcases List.mem_cons.mp hb with rfl | hb
      · exact hc
      · have := h.1 b hb; omega
    · rw [if_neg hc]
      rw [List.pairwise_cons]
      refine ⟨?_, ih h.2⟩
      intro b hb
      rcases mem_insertByLen.mp hb with rfl | hb
      · omega
      · exact h.1 b hb

theorem sortSpecials_pairwise (l : List UText) :
    (sortSpecials l).Pairwise (fun a b => b.length ≤ a.length) := by
  induction l with
  | nil => simp [sortSpecials]
  | cons t rest ih => exact insertByLen_pairwise ih

/-! Vocabulary reverse-lookup lemmas. -/

theorem dictGet_swap_mem {l : List (Nat × ByteSeq)} {b : ByteSeq} {k : Nat}
    (h : dictGet (l.map (fun kv => (kv.2, kv.1))) b = some k) : (k, b) ∈ l := by
  induction l with
  | nil => cases h
  | cons kv rest ih =>
    rw [List.map_cons, dictGet] at h
    cases hr : dictGet (rest.map (fun kv => (kv.2, kv.1))) b with
    | some v =>
      rw [hr] at h
      simp only [Option.some.injEq] at h
      subst h
      exact List.mem_cons_of_mem kv (ih hr)
    | none =>
      rw [hr] at h
      by_cases hb : kv.2 = b
      · rw [if_pos hb] at h
        simp only [Option.some.injEq] at h
        subst h
        rw [← hb]
        exact List.mem_cons_self kv rest
      · rw [if_neg hb] at h
        cases h

theorem dictGet_swap_isSome {l : List (Nat × ByteSeq)} {b : ByteSeq}
    (hb : b ∈ l.map Prod.snd) :
    (dictGet (l.map (fun kv => (kv.2, kv.1))) b).isSome := by
  induction l with
  | nil => simp at hb
  | cons kv rest ih =>
    rw [List.map_cons, dictGet]
    cases hr : dictGet (rest.map (fun kv => (kv.2, kv.1))) b with
    | some v => simp
    | none =>
      have hbv : b = kv.2 := by
        simp only [List.map_cons, List.mem_cons] at hb
        rcases hb with h | h
        · exact h
        · exfalso
          obtain ⟨e, he, hev⟩ := List.mem_map.mp h
          have := (dictGet_eq_none _ _).mp hr (e.2, e.1)
            (List.mem_map_of_mem (fun kv => (kv.2, kv.1)) he)
          exact this hev
      rw [if_pos hbv.symm]
      simp

theorem vocab_roundtrip {tk : Tokenizer} (hKeys : (tk.vocab.map Prod.fst).Nodup)
    {b : ByteSeq} (hb : b ∈ tk.vocab.map Prod.snd) :
    ∃ k, tk.vocab_to_id b = some k ∧ dictGet tk.vocab k = some b := by
  obtain ⟨k, hk⟩ := Option.isSome_iff_exists.mp (dictGet_swap_isSome hb)
  exact ⟨k, hk, dictGet_of_mem_nodup (dictGet_swap_mem hk) hKeys⟩

/-! Word-level and text-level assembly lemmas for `encode`. -/

theorem merge_word_ids {tk : Tokenizer} (hKeys : (tk.vocab.map Prod.fst).Nodup)
    (hM : ∀ m ∈ tk.merges, m.1 ++ m.2 ∈ tk.vocab.map Prod.snd)
    {w : List ByteSeq} (hw : ∀ u ∈ w, u ∈ tk.vocab.map Prod.snd) :
    ∃ ids, tk.merge_word w = some ids
      ∧ optMap (fun i => dictGet tk.vocab i) ids = some (mergeLoop tk w) := by
  have hunits : ∀ u ∈ mergeLoop tk w, u ∈ tk.vocab.map Prod.snd := by
    intro u hu
    rcases mergeLoopF_mem tk w.length w hu with h | ⟨q, hq, rfl⟩
    · exact hw u h
    · exact hM q (ranksFrom_mem_of_isSome hq)
  exact optMap_roundtrip (fun u hu => vocab_roundtrip hKeys (hunits u hu))

theorem words_ids {tk : Tokenizer} (hKeys : (tk.vocab.map Prod.fst).Nodup)
    (hM : ∀ m ∈ tk.merges, m.1 ++ m.2 ∈ tk.vocab.map Prod.snd)
    {ws : List (List ByteSeq)}
    (hws : ∀ w ∈ ws, ∀ u ∈ w, u ∈ tk.vocab.map Prod.snd) :
    ∃ idss, optMap tk.merge_word ws = some idss
      ∧ optMap (fun i => dictGet tk.vocab i) idss.flatten
          = some (ws.map (mergeLoop tk)).flatten := by
  induction ws with
  | nil => exact ⟨[], rfl, rfl⟩
  | cons w rest ih =>
    obtain ⟨ids, h1, h2⟩ := merge_word_ids hKeys hM (hws w (List.mem_cons_self w rest))
    obtain ⟨idss, h3, h4⟩ := ih (fun w' hw' => hws w' (List.mem_cons_of_mem w hw'))
    refine ⟨ids :: idss, ?_, ?_⟩
    · simp [optMap, h1, h3]
    · simp only [List.flatten_cons, List.map_cons]
      exact optMap_append_some h2 h4

theorem reSplit_flatten (sp : List UText) (t : UText) : (reSplit sp t).flatten = t := by
  unfold reSplit
  rw [reSplitAux_flatten sp t.length t [] (le_refl _)]
  simp

theorem chunkPretokens_units {tk : Tokenizer} {chunk : UText} {w : List ByteSeq}
    (hW : w ∈ chunkPretokens tk chunk) :
    (∃ s, s ∈ tk.specials ∧ w = [utf8Encode s])
      ∨ (∃ wt, wt ∈ tk.presplit chunk ∧ w = (utf8Encode wt).map (fun b => [b])) := by
  unfold chunkPretokens at hW
  by_cases hc : chunk ∈ tk.specials
  · rw [if_pos hc] at hW
    simp only [List.mem_cons, List.not_mem_nil, or_false] at hW
    exact Or.inl ⟨chunk, hc, hW⟩
  · rw [if_neg hc] at hW
    obtain ⟨wt, hwt, hw⟩ := List.mem_map.mp hW
    exact Or.inr ⟨wt, hwt, hw.symm⟩

theorem pretokenize_units {tk : Tokenizer}
    (hTile : ∀ c, (tk.presplit c).flatten = c)
    (hB : ∀ b, b < 256 → [b] ∈ tk.vocab.map Prod.snd)
    (hS : ∀ s ∈ tk.specials, utf8Encode s ∈ tk.vocab.map Prod.snd)
    {t : UText} (hV : ∀ c ∈ t, ValidCodepoint c) :
    ∀ w ∈ tk.pretokenize t, ∀ u ∈ w, u ∈ tk.vocab.map Prod.snd := by
  intro w hw u hu
  unfold Tokenizer.pretokenize at hw
  obtain ⟨chunk, hchunk, hwc⟩ := List.mem_flatMap.mp hw
  rcases chunkPretokens_units hwc with ⟨s, hs, rfl⟩ | ⟨wt, hwt, rfl⟩
  · simp only [List.mem_cons, List.not_mem_nil, or_false] at hu
    subst hu
    exact hS s hs
  · obtain ⟨b, hb, rfl⟩ := List.mem_map.mp hu
    apply hB
    have hbc : ∀ c ∈ wt, ValidCodepoint c := by
      intro c hc
      apply hV
      have h1 : c ∈ chunk := by
        rw [← hTile chunk]
        exact List.mem_flatten.mpr ⟨wt, hwt, hc⟩
      rw [← reSplit_flatten tk.sortedSpecials t]
      exact List.mem_flatten.mpr ⟨chunk, hchunk, h1⟩
    obtain ⟨c, hcwt, hbc'⟩ := List.mem_flatMap.mp hb
    exact utf8EncodeChar_lt_256 (hbc c hcwt) b hbc'

theorem chunkPretokens_flatten_bytes {tk : Tokenizer}
    (hTile : ∀ c, (tk.presplit c).flatten = c) (chunk : UText) :
    ((chunkPretokens tk chunk).map List.flatten).flatten = utf8Encode chunk := by
  unfold chunkPretokens
  by_cases hc : chunk ∈ tk.specials
  · rw [if_pos hc]; simp
  · rw [if_neg hc]
    rw [List.map_map]
    have he : (List.flatten ∘ fun w => (utf8Encode w).map (fun b => ([b] : List Nat)))
        = fun w => utf8Encode w := by
      funext w
      exact flatten_map_singleton _
    rw [he, ← utf8Encode_flatten, hTile]

theorem chunks_bytes {tk : Tokenizer} (hTile : ∀ c, (tk.presplit c).flatten = c) :
    ∀ chunks : List UText,
      ((chunks.flatMap (chunkPretokens tk)).map List.flatten).flatten
        = utf8Encode chunks.flatten := by
  intro chunks
  induction chunks with
  | nil => rfl
  | cons c rest ih =>
    simp only [List.flatMap_cons, List.map_append, List.flatten_append, List.flatten_cons,
      utf8Encode_append]
    rw [ih, chunkPretokens_flatten_bytes hTile]

theorem pretokenize_bytes {tk : Tokenizer}
    (hTile : ∀ c, (tk.presplit c).flatten = c) (t : UText) :
    (((tk.pretokenize t).map List.flatten)).flatten = utf8Encode t := by
  unfold Tokenizer.pretokenize
  rw [chunks_bytes hTile, reSplit_flatten]

theorem flatten_flatten_map {α : Type} (L : List (List (List α))) :
    L.flatten.flatten = (L.map List.flatten).flatten := by
  induction L with
  | nil => rfl
  | cons a rest ih => simp [ih]

/-! Concrete tokenizers used in the example theorems and witnesses. -/

/-- The identity pretokenizer: the whole chunk is one maximal pretoken.
A legitimate instance of the spec's abstract "split into maximal pretoken
substrings" collaborator (it tiles every chunk). -/
def presplitId : UText → List UText := fun c => [c]

/-- The 256-entry byte vocabulary `{b: bytes([b]) for b in range(256)}`. -/
def byteVocab : List (Nat × ByteSeq) := (List.range 256).map (fun b => (b, [b]))

/-- A tokenizer over the plain byte vocabulary with no merges and no
special tokens. -/
def tkByte : Tokenizer := Tokenizer.init byteVocab [] [] presplitId

/-- Claim C1: for every tokenizer whose vocabulary covers all single bytes
and is closed under the merge rules (and, as `__init__` guarantees, contains
every special token's bytes), and whose vocabulary ids are unique (a Python
dict), `decode(encode(t)) == t` for every valid Unicode text `t`.  The
pretokenizer is the spec-modelled external collaborator, assumed to tile its
chunk. -/
theorem claim_C1_round_trip {tk : Tokenizer}
    (hKeys : (tk.vocab.map Prod.fst).Nodup)
    (hB : ∀ b, b < 256 → [b] ∈ tk.vocab.map Prod.snd)
    (hM : ∀ m ∈ tk.merges, m.1 ++ m.2 ∈ tk.vocab.map Prod.snd)
    (hS : ∀ s ∈ tk.specials, utf8Encode s ∈ tk.vocab.map Prod.snd)
    (hTile : ∀ c, (tk.presplit c).flatten = c)
    {t : UText} (hV : ∀ c ∈ t, ValidCodepoint c) :
    (tk.encode t).bind tk.decode = some t := by
  obtain ⟨idss, h1, h2⟩ := words_ids hKeys hM (pretokenize_units hTile hB hS hV)
  have hby : ((tk.pretokenize t).map (mergeLoop tk)).flatten.flatten = utf8Encode t := by
    rw [flatten_flatten_map, List.map_map]
    have he : (List.flatten ∘ mergeLoop tk) = List.flatten := by
      funext w
      exact mergeLoopF_flatten tk w.length w
    rw [he, pretokenize_bytes hTile]
  have henc : tk.encode t = some idss.flatten := by
    unfold Tokenizer.encode
    rw [h1]
    rfl
  rw [henc]
  show tk.decode idss.flatten = some t
  unfold Tokenizer.decode
  rw [h2]
  show some (utf8Decode ((tk.pretokenize t).map (mergeLoop tk)).flatten.flatten) = some t
  rw [hby, utf8Decode_encode hV]

/-- Witness for C1 at a concrete instance: the byte tokenizer round-trips
the text "hi" (code points 104, 105). -/
theorem claim_C1_round_trip_witness :
    (tkByte.encode [104, 105]).bind tkByte.decode = some [104, 105] := by
  have hvoc : tkByte.vocab = byteVocab := rfl
  have hfst : byteVocab.map Prod.fst = List.range 256 := by
    rw [byteVocab, List.map_map]
    exact List.map_id _
  have hsnd : byteVocab.map Prod.snd = (List.range 256).map (fun b => [b]) := by
    rw [byteVocab, List.map_map]
    rfl
  apply claim_C1_round_trip
  · rw [hvoc, hfst]
    exact List.nodup_range 256
  · intro b hb
    rw [hvoc, hsnd]
    exact List.mem_map.mpr ⟨b, List.mem_range.mpr hb, rfl⟩
  · intro m hm
    cases hm
  · intro s hs
    cases hs
  · intro c
    show ([c] : List UText).flatten = c
    simp
  · intro c hc
    simp only [List.mem_cons, List.not_mem_nil, or_false] at hc
    rcases hc with rfl | rfl <;> decide

theorem mergeLoopF_of_none {tk : Tokenizer} {ts : List ByteSeq}
    (h : bestPair tk ts = none) : ∀ fuel, mergeLoopF tk fuel ts = ts
  | 0 => rfl
  | fuel + 1 => by rw [mergeLoopF, h]

/-- The example tokenizer of the spec's merge-rank-priority property:
vocabulary `{0:'a',1:'b',2:'ab',3:'bc',4:'abc'}` and merge rules
`[('a','b'), ('b','c'), ('ab','c')]`. -/
def tkC2 : Tokenizer :=
  Tokenizer.init [(0, [97]), (1, [98]), (2, [97, 98]), (3, [98, 99]), (4, [97, 98, 99])]
    [([97], [98]), ([98], [99]), ([97, 98], [99])] [] presplitId

/-- Claim C2: whenever the merge loop selects a pair, that pair is an
adjacent ranked pair of minimal rank among all ranked adjacent pairs; the
loop leaves a unit list unchanged when no adjacent pair is ranked; and on
the spec's example the pretoken `['a','b','c']` encodes to `[4]`. -/
theorem claim_C2_lowest_rank (tk : Tokenizer) (ts : List ByteSeq) (p : BPair)
    (hp : bestPair tk ts = some p) :
    (p ∈ getPairs ts ∧ (tk.merge_ranks p).isSome
      ∧ ∀ q ∈ getPairs ts, (tk.merge_ranks q).isSome → rankD tk p ≤ rankD tk q)
    ∧ (∀ ts' : List ByteSeq,
        (∀ q ∈ getPairs ts', tk.merge_ranks q = none) → mergeLoop tk ts' = ts')
    ∧ tkC2.merge_word [[97], [98], [99]] = some [4] := by
  refine ⟨?_, ?_, by decide⟩
  · obtain ⟨hmem, hmin⟩ := bestPair_spec hp
    obtain ⟨hg, hrank⟩ := mem_candidatePairs.mp hmem
    exact ⟨hg, hrank, fun q hq hqr => hmin q (mem_candidatePairs.mpr ⟨hq, hqr⟩)⟩
  · intro ts' h
    have hc : candidatePairs tk ts' = [] := by
      rw [candidatePairs, List.filter_eq_nil_iff]
      intro q hq
      simp [h q hq]
    exact mergeLoopF_of_none (bestPair_eq_none.mpr hc) ts'.length

/-- Witness for C2 at the spec's example: the selected pair for
`['a','b','c']` is `('a','b')` (rank 0), and the stated properties hold
there. -/
theorem claim_C2_lowest_rank_witness :
    bestPair tkC2 [[97], [98], [99]] = some ([97], [98])
    ∧ ((([97], [98]) ∈ getPairs [[97], [98], [99]]
          ∧ (tkC2.merge_ranks ([97], [98])).isSome
          ∧ ∀ q ∈ getPairs [[97], [98], [99]],
              (tkC2.merge_ranks q).isSome → rankD tkC2 ([97], [98]) ≤ rankD tkC2 q)
        ∧ (∀ ts' : List ByteSeq,
            (∀ q ∈ getPairs ts', tkC2.merge_ranks q = none) → mergeLoop tkC2 ts' = ts')
        ∧ tkC2.merge_word [[97], [98], [99]] = some [4]) :=
  ⟨by decide, claim_C2_lowest_rank tkC2 [[97], [98], [99]] ([97], [98]) (by decide)⟩

/-- Claim C3: one merge round replaces occurrences greedily left to right:
a matched pair is consumed before the scan advances, a non-matching head is
kept; consequently `[a, a, a]` with rule `(a, a)` becomes `[aa, a]`, not
`[a, aa]`. -/
theorem claim_C3_greedy_scan (p : BPair) (a x y : ByteSeq) (rest : List ByteSeq)
    (h : (x, y) ≠ p) :
    mergePass (a, a) [a, a, a] = [a ++ a, a]
    ∧ mergePass p (p.1 :: p.2 :: rest) = (p.1 ++ p.2) :: mergePass p rest
    ∧ mergePass p (x :: y :: rest) = x :: mergePass p (y :: rest) := by
  refine ⟨?_, ?_, ?_⟩
  · simp [mergePass]
  · simp [mergePass]
  · simp [mergePass, h]

/-- Witness for C3 at concrete byte sequences. -/
theorem claim_C3_greedy_scan_witness :
    (([3], [4]) : BPair) ≠ (([0], [1]) : BPair)
    ∧ (mergePass ([2], [2]) [[2], [2], [2]] = [[2] ++ [2], [2]]
        ∧ mergePass (([0], [1]) : BPair) [[0], [1]] = ([0] ++ [1]) :: mergePass ([0], [1]) []
        ∧ mergePass (([0], [1]) : BPair) [[3], [4]] = [3] :: mergePass ([0], [1]) [[4]]) :=
  ⟨by decide, by
    have h := claim_C3_greedy_scan ([0], [1]) [2] [3] [4] [] (by decide)
    exact h⟩

/-- Claim C9: the merge loop terminates on every pretoken: one round on a
unit list that still has the merged pair adjacent strictly decreases the
number of units, and the loop always reaches the exit condition (no ranked
adjacent pair remains at its fixpoint). -/
theorem claim_C9_termination (tk : Tokenizer) (p : BPair) (ts ts' : List ByteSeq)
    (h : p ∈ getPairs ts) :
    (mergePass p ts).length < ts.length ∧ bestPair tk (mergeLoop tk ts') = none :=
  ⟨mergePass_length_lt p ts h, mergeLoopF_fixpoint tk ts'.length ts' (le_refl _)⟩

/-- Witness for C9 at a concrete pretoken. -/
theorem claim_C9_termination_witness :
    (([97], [98]) : BPair) ∈ getPairs [[97], [98]]
    ∧ ((mergePass ([97], [98]) [[97], [98]]).length < ([[97], [98]] : List ByteSeq).length
        ∧ bestPair tkC2 (mergeLoop tkC2 [[97], [98], [99]]) = none) :=
  ⟨by decide, claim_C9_termination tkC2 ([97], [98]) [[97], [98]] [[97], [98], [99]] (by decide)⟩

/-- Claim C6: `decode` fails exactly when some id has no vocabulary entry
(the code's `KeyError` on `self.vocab[id]`, the spec's `UnknownIdError`);
with every id present it always returns text (malformed bytes are replaced,
never an error).  In particular `decode([999999])` against the 256-entry
byte vocabulary fails. -/
theorem claim_C6_decode_missing_id (tk : Tokenizer) (ids : List Nat) :
    (tk.decode ids = none ↔ ∃ i ∈ ids, dictGet tk.vocab i = none)
    ∧ tkByte.decode [999999] = none := by
  constructor
  · unfold Tokenizer.decode
    rw [Option.map_eq_none']
    exact optMap_eq_none _ _
  · unfold Tokenizer.decode
    have h9 : dictGet tkByte.vocab 999999 = none := by
      rw [dictGet_eq_none]
      intro kv hkv
      have hkv' : kv ∈ byteVocab := hkv
      obtain ⟨b, hb, rfl⟩ := List.mem_map.mp hkv'
      have : b < 256 := List.mem_range.mp hb
      omega
    simp [optMap, h9]

/-- Claim C7: mapping the final merged units of a pretoken to ids fails
exactly when some final unit is absent from the vocabulary (the code's
`KeyError` on `self.vocab_to_id[token]`, the spec's `UnknownTokenError`);
otherwise `_merge_word` returns the ids. -/
theorem claim_C7_unknown_token (tk : Tokenizer) (w : List ByteSeq) :
    tk.merge_word w = none ↔ ∃ u ∈ mergeLoop tk w, tk.vocab_to_id u = none := by
  unfold Tokenizer.merge_word
  exact optMap_eq_none _ _

/-- A merge list in which the pair `('a','b')` occurs at positions 0 and 2. -/
def msC8 : List BPair := [([97], [98]), ([99], [100]), ([97], [98])]

/-- A tokenizer built over the duplicated merge list `msC8`. -/
def tkC8 : Tokenizer := Tokenizer.init [(0, [97])] msC8 [] presplitId

/-- Counterexample to claim C8 as stated: with the pair `('a','b')` at
positions 0 and 2 of the merge list, the effective rank is 2 (the last
occurrence), not 0 (the first-inserted occurrence claimed). -/
theorem claim_C8_counterexample :
    tkC8.merge_ranks ([97], [98]) = some 2 ∧ tkC8.merge_ranks ([97], [98]) ≠ some 0 := by
  constructor
  · decide
  · decide

/-- Claim C8 amended: when a pair occurs at more than one position of the
merge list, its effective rank is the position of its *last* occurrence —
the dict comprehension `{merge: i for i, merge in enumerate(merges)}` lets
a later assignment overwrite an earlier one. -/
theorem claim_C8_amended (tk : Tokenizer) (ms₁ ms₂ : List BPair) (p : BPair)
    (hm : tk.merges = ms₁ ++ p :: ms₂) (hp : p ∉ ms₂) :
    tk.merge_ranks p = some ms₁.length := by
  unfold Tokenizer.merge_ranks
  rw [hm]
  have h := @ranksFrom_last ms₁ ms₂ p hp 0
  simpa using h

/-- Witness for the amended C8 at the duplicated merge list. -/
theorem claim_C8_amended_witness :
    tkC8.merges = [([97], [98]), ([99], [100])] ++ ([97], [98]) :: []
    ∧ (([97], [98]) : BPair) ∉ ([] : List BPair)
    ∧ tkC8.merge_ranks ([97], [98]) = some 2 :=
  ⟨rfl, by decide,
    claim_C8_amended tkC8 [([97], [98]), ([99], [100])] [] ([97], [98]) rfl (by decide)⟩

/-- The code points of the literal string of thirteen characters used by the
spec's longest-first example (`<`, `|`, `e`, `n`, `d`, `o`, `f`, `t`, `e`,
`x`, `t`, `|`, `>`). -/
def eotText : UText := [60, 124, 101, 110, 100, 111, 102, 116, 101, 120, 116, 124, 62]

/-- The code points of the seven-character pad literal (`<`, `|`, `p`, `a`,
`d`, `|`, `>`), so that `eotText ++ padText` is the longer special token of
the example and has `eotText` as a proper prefix. -/
def padText : UText := [60, 124, 112, 97, 100, 124, 62]

/-- A tokenizer configured with both special tokens of the longest-first
example; construction inserts them into the (initially empty) vocabulary as
ids 0 and 1. -/
def tkC5 : Tokenizer := Tokenizer.init [] [] [eotText, eotText ++ padText] presplitId

/-- Claim C5: the special-token alternation order is descending by length
(longest first), and with both the short literal and its extension
configured, encoding text equal to the longer literal yields exactly the
single id of the longer token. -/
theorem claim_C5_longest_first (l : List UText) :
    (sortSpecials l).Pairwise (fun a b => b.length ≤ a.length)
    ∧ tkC5.encode (eotText ++ padText) = some [1]
    ∧ tkC5.vocab_to_id (utf8Encode (eotText ++ padText)) = some 1 :=
  ⟨sortSpecials_pairwise l, by decide, by decide⟩

/-! Length-accounting lemmas for claim C10. -/

theorem optMap_merge_length {tk : Tokenizer} :
    ∀ {ws : List (List ByteSeq)} {idss : List (List Nat)},
      optMap tk.merge_word ws = some idss →
      idss.flatten.length ≤ (ws.map List.length).sum := by
  intro ws
  induction ws with
  | nil =>
    intro idss h
    simp only [optMap, Option.some.injEq] at h
    subst h
    simp
  | cons w rest ih =>
    intro idss h
    simp only [optMap] at h
    cases hw : tk.merge_word w with
    | none => rw [hw] at h; cases h
    | some ids =>
      rw [hw] at h
      cases hr : optMap tk.merge_word rest with
      | none => rw [hr] at h; cases h
      | some idss' =>
        rw [hr] at h
        simp only [Option.some.injEq] at h
        subst h
        have h1 : ids.length = (mergeLoop tk w).length := optMap_length hw
        have h2 : (mergeLoop tk w).length ≤ w.length := mergeLoopF_length_le tk w.length w
        have h3 := ih hr
        simp only [List.flatten_cons, List.length_append, List.map_cons, List.sum_cons]
        omega

theorem chunkPretokens_length {tk : Tokenizer}
    (hTile : ∀ c, (tk.presplit c).flatten = c)
    (hNE : ∀ s ∈ tk.specials, s ≠ []) (chunk : UText) :
    ((chunkPretokens tk chunk).map List.length).sum ≤ (utf8Encode chunk).length := by
  unfold chunkPretokens
  by_cases hc : chunk ∈ tk.specials
  · rw [if_pos hc]
    obtain ⟨c, rest, rfl⟩ : ∃ c rest, chunk = c :: rest := by
      cases chunk with
      | nil => exact absurd rfl (hNE [] hc)
      | cons c rest => exact ⟨c, rest, rfl⟩
    have h1 : utf8Encode (c :: rest) = utf8EncodeChar c ++ utf8Encode rest := by
      simp [utf8Encode]
    rw [h1]
    have h2 := utf8EncodeChar_length_pos c
    simp only [List.map_cons, List.map_nil, List.sum_cons, List.sum_nil, List.length_cons,
      List.length_nil, List.length_append]
    omega
  · rw [if_neg hc]
    rw [List.map_map]
    have he : (List.length ∘ fun w => (utf8Encode w).map (fun b => ([b] : List Nat)))
        = fun w => (utf8Encode w).length := by
      funext w
      simp
    rw [he]
    have heq : ((tk.presplit chunk).map (fun w => (utf8Encode w).length)).sum
        = (utf8Encode chunk).length :=
      calc ((tk.presplit chunk).map (fun w => (utf8Encode w).length)).sum
          = (((tk.presplit chunk).map utf8Encode).map List.length).sum := by
            rw [List.map_map]
            rfl
        _ = ((tk.presplit chunk).map utf8Encode).flatten.length :=
            (List.length_flatten _).symm
        _ = (utf8Encode (tk.presplit chunk).flatten).length := by
            rw [utf8Encode_flatten]
        _ = (utf8Encode chunk).length := by rw [hTile]
    omega

theorem chunks_length {tk : Tokenizer}
    (hTile : ∀ c, (tk.presplit c).flatten = c)
    (hNE : ∀ s ∈ tk.specials, s ≠ []) :
    ∀ chunks : List UText,
      ((chunks.flatMap (chunkPretokens tk)).map List.length).sum
        ≤ (utf8Encode chunks.flatten).length := by
  intro chunks
  induction chunks with
  | nil => simp
  | cons c rest ih =>
    simp only [List.flatMap_cons, List.map_append, List.sum_append, List.flatten_cons,
      utf8Encode_append, List.length_append]
    have h1 := chunkPretokens_length hTile hNE c
    omega

/-- A tokenizer configured with the special tokens `"X"` (byte 88) and the
empty literal `""`; construction appends `""`'s (empty) byte string as
id 1. -/
def tkC10 : Tokenizer := Tokenizer.init [(0, [88])] [] [[88], []] presplitId

/-- Counterexample to claim C10 as stated: with the empty literal configured
as a special token, every empty chunk passes the `chunk in
self.special_tokens` test and costs one id for zero input bytes, so
`len(encode(t))` can exceed the UTF-8 byte length of `t`: with specials
`["X", ""]`, `encode("XX")` is five ids (`[1,0,1,0,1]`) for two bytes, and
`encode("")` is one id for zero bytes. -/
theorem claim_C10_counterexample :
    tkC10.encode [88, 88] = some [1, 0, 1, 0, 1]
    ∧ ¬ (([1, 0, 1, 0, 1] : List Nat).length ≤ (utf8Encode [88, 88]).length)
    ∧ tkC10.encode [] = some [1]
    ∧ ¬ (([1] : List Nat).length ≤ (utf8Encode []).length) := by
  refine ⟨by decide, by decide, by decide, by decide⟩

/-- Claim C10 amended: provided every configured special token is a
non-empty literal (the counterexample above shows the bound fails when the
empty literal is configured), the number of ids `encode` emits never
exceeds the UTF-8 byte length of the input: every ordinary pretoken starts
as one unit per byte and merge rounds never grow the unit list, and every
non-empty special token costs one id for at least one byte.  The
pretokenizer is the spec-modelled external collaborator, assumed to tile
its chunk. -/
theorem claim_C10_length_bound {tk : Tokenizer} {t : UText} {ids : List Nat}
    (hTile : ∀ c, (tk.presplit c).flatten = c)
    (hNE : ∀ s ∈ tk.specials, s ≠ [])
    (henc : tk.encode t = some ids) :
    ids.length ≤ (utf8Encode t).length := by
  unfold Tokenizer.encode at henc
  cases ho : optMap tk.merge_word (tk.pretokenize t) with
  | none => rw [ho] at henc; cases henc
  | some idss =>
    rw [ho] at henc
    simp only [Option.map_some'] at henc
    simp only [Option.some.injEq] at henc
    subst henc
    have h1 := optMap_merge_length ho
    have h3 := chunks_length hTile hNE (reSplit tk.sortedSpecials t)
    rw [reSplit_flatten] at h3
    have h2 : tk.pretokenize t = (reSplit tk.sortedSpecials t).flatMap (chunkPretokens tk) :=
      rfl
    rw [h2] at h1
    omega

set_option maxRecDepth 8192 in
/-- Witness for C10: the byte tokenizer encodes "hi" into at most two ids. -/
theorem claim_C10_length_bound_witness :
    (∀ c, ((tkByte.presplit c).flatten = c))
    ∧ (∀ s ∈ tkByte.specials, s ≠ [])
    ∧ tkByte.encode [104, 105] = some [104, 105]
    ∧ ([104, 105] : List Nat).length ≤ (utf8Encode [104, 105]).length := by
  have hTile : ∀ c, (tkByte.presplit c).flatten = c := by
    intro c
    show ([c] : List UText).flatten = c
    simp
  have hNE : ∀ s ∈ tkByte.specials, s ≠ [] := by
    intro s hs
    cases hs
  have henc : tkByte.encode [104, 105] = some [104, 105] := by decide
  exact ⟨hTile, hNE, henc, claim_C10_length_bound hTile hNE henc⟩

/-! Claim C4: special tokens inside text. -/

/-- A tokenizer configured with the two overlapping special tokens `"X"`
(byte 88) and `"aX"` (bytes 97, 88), over a vocabulary with `"a"` and `"X"`;
construction appends `"aX"` as id 2. -/
def tkC4 : Tokenizer := Tokenizer.init [(0, [97]), (1, [88])] [] [[88], [97, 88]] presplitId

/-- Counterexample to claim C4 as stated: with specials `"X"` and `"aX"`,
`u = "a"` and `v = ""` contain no special-token literal, yet
`encode(u + "X" + v) = [id("aX")]`, not `encode(u) ++ [id("X")] ++ encode(v)
= [id("a"), id("X")]`: the longest-first split matches `"aX"` across the
`u`/`S` boundary. -/
theorem claim_C4_counterexample :
    [88] ∈ tkC4.specials
    ∧ (∀ T ∈ tkC4.specials, ∀ i, i ≤ ([97] : UText).length → ¬ T <+: ([97] : UText).drop i)
    ∧ (∀ T ∈ tkC4.specials, ∀ i, i ≤ ([] : UText).length → ¬ T <+: ([] : UText).drop i)
    ∧ tkC4.encode [97] = some [0]
    ∧ tkC4.vocab_to_id (utf8Encode [88]) = some 1
    ∧ tkC4.encode [] = some []
    ∧ tkC4.encode ([97] ++ [88] ++ []) = some [2]
    ∧ ([2] : List Nat) ≠ [0] ++ 1 :: [] := by
  refine ⟨by decide, by decide, by decide, by decide, by decide, by decide, by decide, by decide⟩

/-- Claim C4 amended: `encode(u + S + v) = encode(u) ++ [id(S)] ++ encode(v)`
holds for every configured special token `S` and all `u`, `v`, provided the
only occurrence of any configured special-token literal inside `u + S + v`
is the designated occurrence of `S` at position `len(u)` (the original
claim's hypothesis does not rule out a special token matching across the
`u`/`S` or `S`/`v` boundary, and the counterexample shows it must). -/
theorem claim_C4_amended {tk : Tokenizer} {S u v : UText} {idS : Nat} {eu ev : List Nat}
    (hSmem : S ∈ tk.specials)
    (hNE : ∀ T ∈ tk.specials, T ≠ [])
    (hOnly : ∀ T ∈ tk.specials, ∀ i, i ≤ (u ++ S ++ v).length →
        T <+: (u ++ S ++ v).drop i → T = S ∧ i = u.length)
    (hid : tk.vocab_to_id (utf8Encode S) = some idS)
    (hu : tk.encode u = some eu) (hv : tk.encode v = some ev) :
    tk.encode (u ++ S ++ v) = some (eu ++ idS :: ev) := by
  have hSne : S ≠ [] := hNE S hSmem
  have hasc : u ++ S ++ v = u ++ (S ++ v) := List.append_assoc u S v
  have hOnly' : ∀ T ∈ tk.specials, ∀ i,
      T <+: (u ++ S ++ v).drop i → T = S ∧ i = u.length := by
    intro T hT i hpre
    by_cases hib : i ≤ (u ++ S ++ v).length
    · exact hOnly T hT i hib hpre
    · exfalso
      have hd : (u ++ S ++ v).drop i = [] := List.drop_eq_nil_of_le (by omega)
      rw [hd] at hpre
      exact hNE T hT (List.prefix_nil.mp hpre)
  have hmemS : S ∈ tk.sortedSpecials := mem_sortSpecials.mpr hSmem
  have hSfind : findSpecial tk.sortedSpecials (S ++ v) = some S := by
    obtain ⟨T, hT⟩ := Option.isSome_iff_exists.mp
      (findSpecial_isSome hmemS hSne (List.prefix_append S v))
    obtain ⟨hTmem, hTne, hTpre⟩ := findSpecial_some hT
    have hTpre' : T <+: (u ++ S ++ v).drop u.length := by
      have hd : (u ++ S ++ v).drop u.length = S ++ v := by
        rw [hasc]
        exact List.drop_left u (S ++ v)
      rw [hd]
      exact hTpre
    have h2 := hOnly' T (mem_sortSpecials.mp hTmem) u.length hTpre'
    rw [hT, h2.1]
  have huScan : ∀ i, i < u.length →
      findSpecial tk.sortedSpecials ((u ++ (S ++ v)).drop i) = none := by
    intro i hi
    apply findSpecial_eq_none_of
    intro T hT hTne hTpre
    have h2 := hOnly' T (mem_sortSpecials.mp hT) i (by rw [hasc]; exact hTpre)
    omega
  have hvScan : ∀ i, i < v.length →
      findSpecial tk.sortedSpecials (v.drop i) = none := by
    intro i hi
    apply findSpecial_eq_none_of
    intro T hT hTne hTpre
    have hdd : (u ++ (S ++ v)).drop (u.length + (S.length + i)) = v.drop i := by
      rw [List.drop_append, List.drop_append]
    have hTpre' : T <+: (u ++ S ++ v).drop (u.length + (S.length + i)) := by
      rw [hasc, hdd]
      exact hTpre
    have h2 := hOnly' T (mem_sortSpecials.mp hT) _ hTpre'
    have h3 := h2.2
    have hS1 : S ≠ [] := hSne
    have hS2 : 1 ≤ S.length := by
      cases S with
      | nil => exact absurd rfl hS1
      | cons a l => simp
    omega
  have hSplit : reSplit tk.sortedSpecials (u ++ S ++ v) = [u, S, v] :=
    reSplit_three hSfind huScan hvScan
  have huScanAlone : ∀ i, i < u.length →
      findSpecial tk.sortedSpecials (u.drop i) = none := by
    intro i hi
    apply findSpecial_eq_none_of
    intro T hT hTne hTpre
    have hTpre' : T <+: (u ++ S ++ v).drop i := by
      rw [hasc, List.drop_append_of_le_length (Nat.le_of_lt hi)]
      exact hTpre.trans (List.prefix_append _ _)
    have h2 := hOnly' T (mem_sortSpecials.mp hT) i hTpre'
    omega
  have hPu : tk.pretokenize u = chunkPretokens tk u := by
    unfold Tokenizer.pretokenize
    rw [reSplit_single huScanAlone]
    simp
  have hPv : tk.pretokenize v = chunkPretokens tk v := by
    unfold Tokenizer.pretokenize
    rw [reSplit_single hvScan]
    simp
  have hcS : chunkPretokens tk S = [[utf8Encode S]] := by
    unfold chunkPretokens
    rw [if_pos hSmem]
  unfold Tokenizer.encode at hu hv
  rw [hPu] at hu
  rw [hPv] at hv
  obtain ⟨idssU, hA, hAflat⟩ := Option.map_eq_some'.mp hu
  obtain ⟨idssV, hB, hBflat⟩ := Option.map_eq_some'.mp hv
  have hloop : mergeLoop tk [utf8Encode S] = [utf8Encode S] := rfl
  have hmw : tk.merge_word [utf8Encode S] = some [idS] := by
    unfold Tokenizer.merge_word
    rw [hloop]
    simp [optMap, hid]
  have hP : tk.pretokenize (u ++ S ++ v)
      = chunkPretokens tk u ++ ([[utf8Encode S]] ++ chunkPretokens tk v) := by
    unfold Tokenizer.pretokenize
    rw [hSplit]
    simp only [List.flatMap_cons, List.flatMap_nil, List.append_nil, hcS]
  have hmid : optMap tk.merge_word [[utf8Encode S]] = some [[idS]] := by
    simp [optMap, hmw]
  have hall : optMap tk.merge_word (tk.pretokenize (u ++ S ++ v))
      = some (idssU ++ ([[idS]] ++ idssV)) := by
    rw [hP]
    exact optMap_append_some hA (optMap_append_some hmid hB)
  unfold Tokenizer.encode
  rw [hall]
  simp only [Option.map_some', Option.some.injEq]
  rw [List.flatten_append, List.flatten_append, hAflat, hBflat]
  simp

set_option maxRecDepth 2048 in
/-- Witness for the amended C4 with `u = v = ""` and `S = "X"` on the
overlapping-specials tokenizer: the hypotheses hold (the only special-token
occurrence in `"X"` is `S` itself at position 0) and
`encode("X") = [] ++ [1] ++ []`. -/
theorem claim_C4_amended_witness :
    ([88] : UText) ∈ tkC4.specials
    ∧ (∀ T ∈ tkC4.specials, T ≠ [])
    ∧ (∀ T ∈ tkC4.specials, ∀ i, i ≤ (([] : UText) ++ [88] ++ []).length →
        T <+: (([] : UText) ++ [88] ++ []).drop i → T = [88] ∧ i = ([] : UText).length)
    ∧ tkC4.vocab_to_id (utf8Encode [88]) = some 1
    ∧ tkC4.encode [] = some []
    ∧ tkC4.encode (([] : UText) ++ [88] ++ []) = some ([] ++ 1 :: []) := by
  refine ⟨by decide, by decide, by decide, by decide, by decide, ?_⟩
  exact claim_C4_amended (by decide) (by decide) (by decide) (by decide)
    (by decide) (by decide)
